import Mathlib

/-!
# Verification of the ET-Autodiff expression-template engine

Shallow embedding of `src/ET_AutoDiff/et_autodiff.h`.  The header contains two
autodiff variants that the claims refer to:

* namespace `Et` (embedded below as `EtAD`): expression nodes
  (`ConstantExpr`, `VariableExpr`, `PlaceholderExpr`, `AddExpr`, …,
  `PowerExpr`, `NegateExpr`, …, `TanExpr`), the compile-time computation order
  (`dfs_tuple` / `_impl_dfs_final_tuple`), the gradient bookkeeping nodes
  (`TerminalNode` / `UnaryNode` / `BinaryNode`) and the
  `GradientDescentOptimizer` with `ForwardPass` / `Minimize` / `Maximize` /
  `GetPreResult` / `GetPostResult`.

* namespace `Et_test` (embedded below as `EtTest`): the variant whose only
  operation is `AddExpr`, whose `_global_gradient` lives inside the operation
  nodes themselves and whose `Minimize` seeds `-learning_rate` while
  `Maximize` seeds the literal `1.0`.

The scalar value type of the source is `Num::Scalar<double>` from `tensor.h`;
it is modelled by an arbitrary `Field α`.  The transcendental functions
(`Num::sin/cos/tan/log/pow`, which wrap the `std` versions) are abstract
function parameters bundled in `TOps`.  `Num::Scalar::Inverse` is
`1.0 / value`, modelled as field division (so `1/0 = 0` stands in for the
IEEE infinity that the source lets propagate; no claim below depends on a
division at zero).  `Num::sec` is `1.0 / cos x`.

Trainable variables are identified by an index into a value store
`vars : ℕ → α` (two occurrences of `Leaf.var i` model two references to the
same `VariableExpr` object, which is how `X1 * X1` shares one variable in the
source).  Placeholders are likewise a store of `Ph` records mirroring
`Et::PlaceholderExpr`'s fields `_is_default` / `_value`.
-/

set_option autoImplicit false

namespace EtAD

/-- Tags for the unary operation expressions `NegateExpr`, `LogExpr`,
`SinExpr`, `CosExpr`, `TanExpr`. -/
inductive UnOp where
  | neg
  | log
  | sin
  | cos
  | tan
deriving DecidableEq

/-- Tags for the binary operation expressions `AddExpr`, `SubtractExpr`,
`MultiplyExpr`, `DivideExpr`, `PowerExpr`. -/
inductive BinOp where
  | add
  | sub
  | mul
  | div
  | pow
deriving DecidableEq

/-- The transcendental functions of the value type (namespace `Num` of
`tensor.h` wraps `std::sin` etc.); kept abstract. -/
structure TOps (α : Type) where
  sin : α → α
  cos : α → α
  tan : α → α
  log : α → α
  pow : α → α → α

variable {α β : Type}

/-- `Num::sec` from `tensor.h`: `1.0 / cos x`. -/
def TOps.sec [Field α] (ops : TOps α) (x : α) : α := 1 / ops.cos x

/-- Terminal expressions: `ConstantExpr` (immutable value), `VariableExpr`
(index into the variable store), `PlaceholderExpr` (index into the
placeholder store). -/
inductive Leaf (α : Type) where
  | cst (v : α)
  | var (i : ℕ)
  | ph (i : ℕ)
deriving DecidableEq

/-- An expression tree of the `Et` namespace. -/
inductive Expr (α : Type) where
  | term (l : Leaf α)
  | un (op : UnOp) (a : Expr α)
  | bin (op : BinOp) (a b : Expr α)
deriving DecidableEq

/-- `Et::dfs_tuple_size_v<E>`: the number of visit slots of an expression
(`std::tuple_size` of `dfs_tuple_t`, which concatenates the child tuples and
one entry for the node itself). -/
def dfs_tuple_size : Expr α → ℕ
  | .term _ => 1
  | .un _ a => dfs_tuple_size a + 1
  | .bin _ a b => dfs_tuple_size a + dfs_tuple_size b + 1

/-- `Et::dfs_tuple_t<E>`: the expression types in DFS (children before
parent) order, one entry per occurrence. -/
def dfs_tuple : Expr α → List (Expr α)
  | .term l => [.term l]
  | .un op a => dfs_tuple a ++ [.un op a]
  | .bin op a b => dfs_tuple a ++ dfs_tuple b ++ [.bin op a b]

/-- A visit record of the computation order: the element types of
`Et::dfs_final_tuple_t` (`TerminalNode<E>`, `UnaryNode<E, I1>`,
`BinaryNode<E, I1, I2>`), keeping the statically-known child slot indices
`child_one_v` / `child_two_v` (C++ `int`, hence `ℤ`). -/
inductive Node (α : Type) where
  | term (l : Leaf α)
  | un (op : UnOp) (c1 : ℤ)
  | bin (op : BinOp) (c1 c2 : ℤ)
deriving DecidableEq

/-- The child slot indices recorded in a visit record. -/
def childrenOf : Node α → List ℤ
  | .term _ => []
  | .un _ c1 => [c1]
  | .bin _ c1 c2 => [c1, c2]

/-- `Et::_impl_dfs_final_tuple<E, I>`: lays out the visit records of the
subtree; `I` is the (exclusive) end of the slot range the subtree occupies.
For a unary node the child tuple is built with `I - 1` and the node is
`UnaryNode<E, I - 2>`; for a binary node the children use
`I - 1 - dfs_tuple_size_v<second>` and `I - 1`, and the node is
`BinaryNode<E, I - 2 - dfs_tuple_size_v<second>, I - 2>`. -/
def dfs_final_tuple : Expr α → ℤ → List (Node α)
  | .term l, _ => [.term l]
  | .un op a, I => dfs_final_tuple a (I - 1) ++ [.un op (I - 2)]
  | .bin op a b, I =>
      dfs_final_tuple a (I - 1 - (dfs_tuple_size b : ℤ)) ++ dfs_final_tuple b (I - 1) ++
        [.bin op (I - 2 - (dfs_tuple_size b : ℤ)) (I - 2)]

/-- `Et::dfs_final_tuple_t<E> = _impl_dfs_final_tuple_t<E, dfs_tuple_size_v<E>>`:
the Computation Order of the optimizer. -/
def order (e : Expr α) : List (Node α) := dfs_final_tuple e (dfs_tuple_size e)

/-- The visit record that the root expression contributes (the last element
of `dfs_final_tuple_t`, instantiated at `I = dfs_tuple_size_v<E>`). -/
def rootRec (e : Expr α) : Node α :=
  match e with
  | .term l => .term l
  | .un op a => .un op ((dfs_tuple_size (Expr.un op a) : ℤ) - 2)
  | .bin op a b =>
      .bin op ((dfs_tuple_size (Expr.bin op a b) : ℤ) - 2 - (dfs_tuple_size b : ℤ))
        ((dfs_tuple_size (Expr.bin op a b) : ℤ) - 2)

/-- Replace constant payloads, keeping the structural shape. -/
def mapVal (f : α → β) : Expr α → Expr β
  | .term (.cst v) => .term (.cst (f v))
  | .term (.var i) => .term (.var i)
  | .term (.ph i) => .term (.ph i)
  | .un op a => .un op (mapVal f a)
  | .bin op a b => .bin op (mapVal f a) (mapVal f b)

/-- Whether the expression references at least one trainable `VariableExpr`. -/
def hasVar : Expr α → Bool
  | .term (.var _) => true
  | .term _ => false
  | .un _ a => hasVar a
  | .bin _ a b => hasVar a || hasVar b

section Values

variable [Field α] (ops : TOps α)

/-- The value of a unary operation (`operator()` of the expression class). -/
def unVal (op : UnOp) (x : α) : α :=
  match op with
  | .neg => -x
  | .log => ops.log x
  | .sin => ops.sin x
  | .cos => ops.cos x
  | .tan => ops.tan x

/-- The local gradient a unary `Eval` stores via `SetLocalGrads`:
`NegateExpr`: `-1.0`; `LogExpr`: `first_value.Inverse()`;
`SinExpr`: `cos(first_value)`; `CosExpr`: `-sin(first_value)`;
`TanExpr`: `sec_value * sec_value`. -/
def unLG (op : UnOp) (x : α) : α :=
  match op with
  | .neg => -1
  | .log => 1 / x
  | .sin => ops.cos x
  | .cos => -ops.sin x
  | .tan => ops.sec x * ops.sec x

/-- The value of a binary operation (`operator()` of the expression class). -/
def binVal (op : BinOp) (x y : α) : α :=
  match op with
  | .add => x + y
  | .sub => x - y
  | .mul => x * y
  | .div => x / y
  | .pow => ops.pow x y

/-- First local gradient a binary `Eval` stores via `SetLocalGrads`:
`AddExpr`: `1.0`; `SubtractExpr`: `1.0`; `MultiplyExpr`: `second_value`;
`DivideExpr`: `second_value.Inverse()`;
`PowerExpr`: `second_value * value * first_value.Inverse()`. -/
def binLG1 (op : BinOp) (x y : α) : α :=
  match op with
  | .add => 1
  | .sub => 1
  | .mul => y
  | .div => 1 / y
  | .pow => y * ops.pow x y * (1 / x)

/-- Second local gradient a binary `Eval` stores via `SetLocalGrads`:
`AddExpr`: `1.0`; `SubtractExpr`: `-1.0`; `MultiplyExpr`: `first_value`;
`DivideExpr`: `-first_value * inv * inv` with `inv = second_value.Inverse()`;
`PowerExpr`: `value * log(first_value)`. -/
def binLG2 (op : BinOp) (x y : α) : α :=
  match op with
  | .add => 1
  | .sub => -1
  | .mul => x
  | .div => -x * (1 / y) * (1 / y)
  | .pow => ops.pow x y * ops.log x

/-- The §4.1 local-derivative formulas of the specification for unary
operations, written as the spec states them. -/
def specULG (op : UnOp) (x : α) : α :=
  match op with
  | .neg => -1
  | .log => 1 / x
  | .sin => ops.cos x
  | .cos => -ops.sin x
  | .tan => 1 / (ops.cos x) ^ 2

/-- The §4.1 first partial derivatives of the specification for binary
operations (for `Power` the spec itself gives the `b * result * (1/a)`
form). -/
def specLG1 (op : BinOp) (x y : α) : α :=
  match op with
  | .add => 1
  | .sub => 1
  | .mul => y
  | .div => 1 / y
  | .pow => y * ops.pow x y * (1 / x)

/-- The §4.1 second partial derivatives of the specification for binary
operations. -/
def specLG2 (op : BinOp) (x y : α) : α :=
  match op with
  | .add => 1
  | .sub => -1
  | .mul => x
  | .div => -x / y ^ 2
  | .pow => ops.pow x y * ops.log x

end Values

/-- `Et::PlaceholderExpr`'s state: `_is_default` (set `true` by the
constructor and never modified nor consulted afterwards in the source) and
`_value` (zero-initialised; `FeedValue` overwrites it, `operator()` returns
it unconditionally). -/
structure Ph (α : Type) where
  isDefault : Bool
  value : α
deriving DecidableEq

/-- A freshly constructed `Et::PlaceholderExpr`:
`_is_default{ true }, _value{ Num::zero_v }`. -/
def Ph.init [Field α] : Ph α := ⟨true, 0⟩

/-- `Et::PlaceholderExpr::FeedValue`: overwrites `_value` only (it does not
touch `_is_default`). -/
def Ph.feedValue (p : Ph α) (v : α) : Ph α := ⟨p.isDefault, v⟩

/-- One bookkeeping slot of the optimizer's tuple, uniformly covering
`TerminalNode` (`_expr`, `_gradient`), `UnaryNode` (adds
`_first_local_grad`) and `BinaryNode` (adds `_second_local_grad`).
`exprSet` records whether the `_expr` back-pointer has been assigned by a
forward pass (it is `nullptr` until then). -/
structure Slot (α : Type) where
  exprSet : Bool
  grad : α
  lg1 : α
  lg2 : α
deriving DecidableEq

/-- A default-constructed node: `_expr{ nullptr }`, gradient and local
gradients zero-initialised (`Num::zero_v`). -/
def Slot.init [Field α] : Slot α := ⟨false, 0, 0, 0⟩

/-- The full mutable state a `GradientDescentOptimizer` run touches: the
variable store, the placeholder store, the slot tuple (indexed by the C++
`int` slot index) and the optimizer's `_result` field. -/
structure OptSt (α : Type) where
  vars : ℕ → α
  phs : ℕ → Ph α
  slots : ℤ → Slot α
  result : α

/-- The state right after constructing the optimizer: the tuple is
default-constructed (`Slot.init` everywhere) and `_result` is a
default-constructed scalar (zero). -/
def initSt [Field α] (V : ℕ → α) (P : ℕ → Ph α) : OptSt α :=
  ⟨V, P, fun _ => Slot.init, 0⟩

/-- Apply a function to the slot at index `n` (`std::get<n>(_tuple)`). -/
def setSlotAt (s : OptSt α) (n : ℤ) (f : Slot α → Slot α) : OptSt α :=
  { s with slots := fun m => if m = n then f (s.slots m) else s.slots m }

/-- `AddMyGrad`: `_gradient += addition` on the slot at index `n`. -/
def AddMyGrad [Field α] (s : OptSt α) (n : ℤ) (g : α) : OptSt α :=
  setSlotAt s n (fun sl => { sl with grad := sl.grad + g })

/-- `ResetGrad`: `_gradient = Num::zero_v` on the slot at index `n`. -/
def resetGradAt [Field α] (s : OptSt α) (n : ℤ) : OptSt α :=
  setSlotAt s n (fun sl => { sl with grad := 0 })

/-- The value `operator()` of a terminal reads: a constant's `_value`, a
variable's `_value` from the store, a placeholder's `_value`
(unconditionally — `Et::PlaceholderExpr::operator()` never checks
`_is_default`). -/
def leafVal (s : OptSt α) : Leaf α → α
  | .cst v => v
  | .var i => s.vars i
  | .ph i => (s.phs i).value

section Machine

variable [Field α] (ops : TOps α)

/-- Direct recursive evaluation `operator()()` of the live expression tree
(each operation applies its operator to its children's `operator()`). -/
def exprVal (V : ℕ → α) (P : ℕ → Ph α) : Expr α → α
  | .term (.cst v) => v
  | .term (.var i) => V i
  | .term (.ph i) => (P i).value
  | .un op a => unVal ops op (exprVal V P a)
  | .bin op a b => binVal ops op (exprVal V P a) (exprVal V P b)

/-- `Eval<I>(tuple)` of the `Et` expression classes, with `I` the slot index
of this occurrence.  A terminal stores its back-pointer
(`SetLocalGrads(this)`) and returns its value.  A unary node first evaluates
its child at slot `child_one_v = I - 1`, then stores the back-pointer and
local gradient, and returns its value.  A binary node evaluates the first
child at `child_one_v = I - 1 - dfs_tuple_size_v<second>`, the second child
at `child_two_v = I - 1`, stores both local gradients, and returns its
value.  (The child indices are the `child_one_v`/`child_two_v` constants of
the tuple element at `I`, which `_impl_dfs_final_tuple` fixed to exactly
these arithmetic expressions.)  `SetLocalGrads` never touches `_gradient`. -/
def Eval : Expr α → ℤ → OptSt α → OptSt α × α
  | .term l, I, s =>
      (setSlotAt s I (fun sl => { sl with exprSet := true }), leafVal s l)
  | .un op a, I, s =>
      let r1 := Eval a (I - 1) s
      (setSlotAt r1.1 I (fun sl => ⟨true, sl.grad, unLG ops op r1.2, sl.lg2⟩),
        unVal ops op r1.2)
  | .bin op a b, I, s =>
      let r1 := Eval a (I - 1 - (dfs_tuple_size b : ℤ)) s
      let r2 := Eval b (I - 1) r1.1
      (setSlotAt r2.1 I
          (fun sl => ⟨true, sl.grad, binLG1 ops op r1.2 r2.2, binLG2 ops op r1.2 r2.2⟩),
        binVal ops op r1.2 r2.2)

/-- `GradientDescentOptimizer::ForwardPass`: `_result =
_expr.Eval<dfs_tuple_size_v<E> - 1>(_tuple)`. -/
def ForwardPass (e : Expr α) (s : OptSt α) : OptSt α :=
  let r := Eval ops e ((dfs_tuple_size e : ℤ) - 1) s
  { r.1 with result := r.2 }

/-- `GradientDescentOptimizer::_impl_FeedPlaceholders` /
`PlaceholderExpr::FeedValue` for one placeholder. -/
def FeedValue (s : OptSt α) (i : ℕ) (v : α) : OptSt α :=
  { s with phs := fun j => if j = i then (s.phs j).feedValue v else s.phs j }

/-- `GradientDescentOptimizer::GetPreResult`: returns `_result`. -/
def GetPreResult (s : OptSt α) : α := s.result

/-- `GradientDescentOptimizer::GetPostResult`: returns `_expr()`, the direct
recursive evaluation of the live tree. -/
def GetPostResult (e : Expr α) (s : OptSt α) : α := exprVal ops s.vars s.phs e

/-- The body of `_impl_BackwardPass<I>` for the record at slot `i`:
a trainable `TerminalNode` runs `UpdateVariable(learning_rate)`
(`_expr->AddDelta(learning_rate * _gradient)`; dereferencing the `_expr`
pointer fails if no forward pass ever assigned it, modelled as `none`);
a `UnaryNode`/`BinaryNode` runs `SetChildGrads(tuple)`
(`std::get<child>(tuple).AddMyGrad(_gradient * local_grad)` for each child);
every record then runs `ResetGrad()`. -/
def backStep (lr : α) (i : ℕ) (nd : Node α) (s : OptSt α) :
    Option (OptSt α) :=
  match nd with
  | .term (.var j) =>
      let sl := s.slots (i : ℤ)
      if sl.exprSet then
        some (resetGradAt
          { s with vars := fun k => if k = j then s.vars k + lr * sl.grad else s.vars k }
          (i : ℤ))
      else none
  | .term _ => some (resetGradAt s (i : ℤ))
  | .un _ c1 =>
      some (resetGradAt
        (AddMyGrad s c1 ((s.slots (i : ℤ)).grad * (s.slots (i : ℤ)).lg1)) (i : ℤ))
  | .bin _ c1 c2 =>
      let s1 := AddMyGrad s c1 ((s.slots (i : ℤ)).grad * (s.slots (i : ℤ)).lg1)
      some (resetGradAt
        (AddMyGrad s1 c2 ((s1.slots (i : ℤ)).grad * (s1.slots (i : ℤ)).lg2)) (i : ℤ))

/-- Run `backStep` over a list of (slot index, record) pairs in order. -/
def backWalk (lr : α) : List (ℕ × Node α) → OptSt α → Option (OptSt α)
  | [], s => some s
  | p :: rest, s => (backStep lr p.1 p.2 s).bind (backWalk lr rest)

/-- Pair each record of a list with its slot index, starting at `b`. -/
def enumF (b : ℕ) : List (Node α) → List (ℕ × Node α)
  | [] => []
  | nd :: rest => (b, nd) :: enumF (b + 1) rest

/-- `_impl_BackwardPass<dfs_tuple_size_v<E> - 1>(learning_rate)`: visit the
slots from the last index down to `0`. -/
def BackwardPass (lr : α) (e : Expr α) (s : OptSt α) : Option (OptSt α) :=
  backWalk lr (enumF 0 (order e)).reverse s

/-- `GradientDescentOptimizer::Minimize(learning_rate)`: seed the root slot
with `AddMyGrad(Num::identity_v)` (adds `1.0`), then run the backward pass
with `-learning_rate`. -/
def Minimize (lr : α) (e : Expr α) (s : OptSt α) : Option (OptSt α) :=
  BackwardPass (-lr) e (AddMyGrad s ((dfs_tuple_size e : ℤ) - 1) 1)

/-- `GradientDescentOptimizer::Maximize(learning_rate)`: seed the root slot
with `AddMyGrad(Num::identity_v)`, then run the backward pass with
`+learning_rate`. -/
def Maximize (lr : α) (e : Expr α) (s : OptSt α) : Option (OptSt α) :=
  BackwardPass lr e (AddMyGrad s ((dfs_tuple_size e : ℤ) - 1) 1)

/-- The slot transformation that a forward pass applies to the slot of a
given occurrence: terminals only set the back-pointer; a unary occurrence
additionally stores its local gradient (leaving `_second_local_grad`
untouched, as `UnaryNode` has none); a binary occurrence stores both.
`_gradient` is never touched. -/
def fwdSlotUpd (V : ℕ → α) (P : ℕ → Ph α) : Expr α → Slot α → Slot α
  | .term _, sl => { sl with exprSet := true }
  | .un op a, sl => ⟨true, sl.grad, unLG ops op (exprVal ops V P a), sl.lg2⟩
  | .bin op a b, sl =>
      ⟨true, sl.grad, binLG1 ops op (exprVal ops V P a) (exprVal ops V P b),
        binLG2 ops op (exprVal ops V P a) (exprVal ops V P b)⟩

/-- The total gradient the backward pass accumulates into variable `j` from
the subtree, when the subtree's root slot holds accumulated gradient `g`:
each push multiplies the parent's accumulated gradient by the local gradient
recorded at forward-pass time, and the contributions of all occurrences of
`j` add up. -/
def adjSum (V : ℕ → α) (P : ℕ → Ph α) : Expr α → α → ℕ → α
  | .term (.var i), g, j => if i = j then g else 0
  | .term (.cst _), _, _ => 0
  | .term (.ph _), _, _ => 0
  | .un op a, g, j => adjSum V P a (g * unLG ops op (exprVal ops V P a)) j
  | .bin op a b, g, j =>
      adjSum V P a (g * binLG1 ops op (exprVal ops V P a) (exprVal ops V P b)) j +
        adjSum V P b (g * binLG2 ops op (exprVal ops V P a) (exprVal ops V P b)) j

end Machine

end EtAD

namespace EtTest

variable {α : Type}

/-- Expression trees of the `Et_test` namespace.  Its only operation class
is `AddExpr`, which carries the mutable `_global_gradient` field inside the
expression node itself (the C++ leaves it uninitialised at construction;
every `Minimize`/`Maximize` first runs `_InitializeGradients`, which zeroes
it before any read, so construction-time content is irrelevant and modelled
as `0`). -/
inductive TExpr (α : Type) where
  | cst (v : α)
  | var (i : ℕ)
  | ph (i : ℕ)
  | add (g : α) (a b : TExpr α)
deriving DecidableEq

section TDefs

variable [Field α]

/-- Direct evaluation `operator()`: `Et_test::PlaceholderExpr::operator()`
reads `_value.value()` of a `std::optional`, which fails when never fed
(modelled by `Option`). -/
def tval (V : ℕ → α) (P : ℕ → Option α) : TExpr α → Option α
  | .cst v => some v
  | .var i => some (V i)
  | .ph i => P i
  | .add _ a b => do pure ((← tval V P a) + (← tval V P b))

/-- `_InitializeGradients<0>()`: every operation node's
`InitializeGradient()` sets `_global_gradient = 0.0`; terminals are
skipped. -/
def initGrads : TExpr α → TExpr α
  | .add _ a b => .add 0 (initGrads a) (initGrads b)
  | e => e

/-- `AddGradient` called on the root operation node
(`std::get<tuple_size_v - 1>(_tuple).GetExpr().AddGradient(x)`):
`_global_gradient += addition`.  (The optimizer's `enable_if` forces the
root to be an operation node; on a terminal root nothing is reachable.) -/
def addGradRoot (x : α) : TExpr α → TExpr α
  | .add g a b => .add (g + x) a b
  | e => e

/-- The root node's `_global_gradient` (zero for a terminal, which holds
none). -/
def rootGrad : TExpr α → α
  | .add g _ _ => g
  | _ => 0

/-- The number of nodes of a `TExpr` (termination measure only). -/
def tsize : TExpr α → ℕ
  | .add _ a b => tsize a + tsize b + 1
  | _ => 1

/-- `AddGradient(x)` dispatched on a child, as `AddExpr::BackwardPass` does:
only trainable children receive it — `AddExpr` (which inherits
`TrainableExpr`) accumulates into `_global_gradient`, `VariableExpr`
accumulates directly into `_value`; `ConstantExpr` and `PlaceholderExpr`
are skipped. -/
def pushT (x : α) : TExpr α → (ℕ → α) → TExpr α × (ℕ → α)
  | .add g a b, V => (.add (g + x) a b, V)
  | .var i, V => (.var i, fun k => if k = i then V k + x else V k)
  | .cst v, V => (.cst v, V)
  | .ph i, V => (.ph i, V)

/-- `_BackwardPass<tuple_size_v - 1>()`: walk the slots from the last down
to `0`; at each operation node run `BackwardPass()` (push
`_global_gradient` into the trainable children, first child first) and then
`ResetGradient()` (`_global_gradient = 0.0`); terminals are skipped.  In
slot order the node itself comes after its children and the second child's
subtree after the first child's, so the descending walk is: the node, then
the second subtree, then the first subtree. -/
def tBackward : TExpr α → (ℕ → α) → TExpr α × (ℕ → α)
  | .add g a b, V =>
      let pa := pushT g a V
      let pb := pushT g b pa.2
      let wb := tBackward pb.1 pb.2
      let wa := tBackward pa.1 wb.2
      (.add 0 wa.1 wb.1, wa.2)
  | .cst v, V => (.cst v, V)
  | .var i, V => (.var i, V)
  | .ph i, V => (.ph i, V)
termination_by e V => tsize e
decreasing_by
  all_goals
    have h : ∀ (x : α) (u : TExpr α) (W : ℕ → α), tsize (pushT x u W).1 = tsize u := by
      intro x u W
      cases u <;> rfl
    simp only [h, tsize]
    omega

/-- `Et_test::GradientDescentOptimizer::Minimize(learning_rate)`:
`_InitializeGradients`, then `AddGradient(-learning_rate)` on the root
node's `_global_gradient`, then the backward walk. -/
def tMinimize (lr : α) (e : TExpr α) (V : ℕ → α) : TExpr α × (ℕ → α) :=
  tBackward (addGradRoot (-lr) (initGrads e)) V

/-- `Et_test::GradientDescentOptimizer::Maximize(learning_rate)`:
`_InitializeGradients`, then `AddGradient(1.0)` on the root — the literal
`1.0`, not the learning rate — then the backward walk. -/
def tMaximize (lr : α) (e : TExpr α) (V : ℕ → α) : TExpr α × (ℕ → α) :=
  tBackward (addGradRoot 1 (initGrads e)) V

end TDefs

end EtTest

/-- A concrete instantiation of the abstract transcendental-function bundle,
used to run the machine on rational inputs (the examples below only exercise
field arithmetic, so the choice of functions is irrelevant). -/
def qOps : EtAD.TOps ℚ := ⟨fun _ => 0, fun _ => 0, fun _ => 0, fun _ => 0, fun _ _ => 0⟩

namespace EtAD

variable {α β : Type}

theorem dfs_tuple_size_pos (e : Expr α) : 1 ≤ dfs_tuple_size e := by
  cases e <;> simp [dfs_tuple_size]

theorem length_dfs_final_tuple (e : Expr α) (I : ℤ) :
    (dfs_final_tuple e I).length = dfs_tuple_size e := by
  induction e generalizing I with
  | term l => rfl
  | un op a ih =>
      simp only [dfs_final_tuple, List.length_append, List.length_cons, List.length_nil,
        dfs_tuple_size, ih]
  | bin op a b iha ihb =>
      simp only [dfs_final_tuple, List.length_append, List.length_cons, List.length_nil,
        dfs_tuple_size, iha, ihb]

theorem length_dfs_tuple (e : Expr α) : (dfs_tuple e).length = dfs_tuple_size e := by
  induction e with
  | term l => rfl
  | un op a ih =>
      simp only [dfs_tuple, List.length_append, List.length_cons, List.length_nil,
        dfs_tuple_size, ih]
  | bin op a b iha ihb =>
      simp only [dfs_tuple, List.length_append, List.length_cons, List.length_nil,
        dfs_tuple_size, iha, ihb]

theorem dfs_tuple_getElem_last (e : Expr α) :
    (dfs_tuple e)[dfs_tuple_size e - 1]? = some e := by
  cases e with
  | term l => rfl
  | un op a =>
      have ha := length_dfs_tuple a
      have hk : dfs_tuple_size (Expr.un op a) - 1 = (dfs_tuple a).length := by
        simp only [dfs_tuple_size, ha, Nat.add_sub_cancel]
      rw [hk]
      show (dfs_tuple a ++ [Expr.un op a])[(dfs_tuple a).length]? = some (Expr.un op a)
      exact List.getElem?_concat_length _ _
  | bin op a b =>
      have ha := length_dfs_tuple a
      have hb := length_dfs_tuple b
      have hk : dfs_tuple_size (Expr.bin op a b) - 1 = (dfs_tuple a ++ dfs_tuple b).length := by
        simp only [dfs_tuple_size, List.length_append, ha, hb]
        omega
      rw [hk]
      show ((dfs_tuple a ++ dfs_tuple b) ++ [Expr.bin op a b])[(dfs_tuple a ++ dfs_tuple b).length]? =
        some (Expr.bin op a b)
      exact List.getElem?_concat_length _ _

theorem enumF_append (b : ℕ) (l1 l2 : List (Node α)) :
    enumF b (l1 ++ l2) = enumF b l1 ++ enumF (b + l1.length) l2 := by
  induction l1 generalizing b with
  | nil => simp [enumF]
  | cons nd rest ih =>
      have h : b + 1 + rest.length = b + (rest.length + 1) := by omega
      show (b, nd) :: enumF (b + 1) (rest ++ l2) =
        (b, nd) :: enumF (b + 1) rest ++ enumF (b + (rest.length + 1)) l2
      rw [ih, h, List.cons_append]

theorem mem_enumF {nd : Node α} {l : List (Node α)} (b : ℕ) (h : nd ∈ l) :
    ∃ i, (i, nd) ∈ enumF b l := by
  induction l generalizing b with
  | nil => cases h
  | cons hd rest ih =>
      rcases List.mem_cons.1 h with h1 | h2
      · exact ⟨b, by simp [enumF, h1]⟩
      · rcases ih (b + 1) h2 with ⟨i, hi⟩
        exact ⟨i, by simp [enumF, hi]⟩

theorem Eval_preserves [Field α] (ops : TOps α) (e : Expr α) (I : ℤ) (s : OptSt α) :
    (Eval ops e I s).1.vars = s.vars ∧ (Eval ops e I s).1.phs = s.phs ∧
      (Eval ops e I s).1.result = s.result := by
  induction e generalizing I s with
  | term l => exact ⟨rfl, rfl, rfl⟩
  | un op a ih =>
      have h := ih (I - 1) s
      simpa [Eval, setSlotAt] using h
  | bin op a b iha ihb =>
      have ha := iha (I - 1 - (dfs_tuple_size b : ℤ)) s
      have hb := ihb (I - 1) (Eval ops a (I - 1 - (dfs_tuple_size b : ℤ)) s).1
      simp only [Eval, setSlotAt]
      exact ⟨by rw [hb.1, ha.1], by rw [hb.2.1, ha.2.1], by rw [hb.2.2, ha.2.2]⟩

theorem Eval_val [Field α] (ops : TOps α) (e : Expr α) (I : ℤ) (s : OptSt α) :
    (Eval ops e I s).2 = exprVal ops s.vars s.phs e := by
  induction e generalizing I s with
  | term l => cases l <;> rfl
  | un op a ih => simp [Eval, exprVal, ih]
  | bin op a b iha ihb =>
      have hp := Eval_preserves ops a (I - 1 - (dfs_tuple_size b : ℤ)) s
      simp [Eval, exprVal, iha, ihb, hp.1, hp.2.1]

theorem Eval_slots_out [Field α] (ops : TOps α) (e : Expr α) :
    ∀ (I : ℤ) (s : OptSt α) (n : ℤ), (n ≤ I - dfs_tuple_size e ∨ I < n) →
    (Eval ops e I s).1.slots n = s.slots n := by
  induction e with
  | term l =>
      intro I s n h
      have hs := dfs_tuple_size_pos (Expr.term (α := α) l)
      simp only [Eval, setSlotAt]
      rw [if_neg (by simp [dfs_tuple_size] at h; omega)]
  | un op a ih =>
      intro I s n h
      have ha := dfs_tuple_size_pos a
      simp only [dfs_tuple_size] at h
      simp only [Eval, setSlotAt]
      rw [if_neg (by push_cast at h; omega)]
      exact ih (I - 1) s n (by push_cast at h ⊢; omega)
  | bin op a b iha ihb =>
      intro I s n h
      have ha := dfs_tuple_size_pos a
      have hb := dfs_tuple_size_pos b
      simp only [dfs_tuple_size] at h
      simp only [Eval, setSlotAt]
      rw [if_neg (by push_cast at h; omega)]
      rw [ihb (I - 1) _ n (by push_cast at h ⊢; omega)]
      exact iha (I - 1 - (dfs_tuple_size b : ℤ)) s n (by push_cast at h ⊢; omega)

theorem Eval_slots_in [Field α] (ops : TOps α) (e : Expr α) :
    ∀ (I : ℤ) (s : OptSt α) (p : ℕ) (se : Expr α) (n : ℤ),
    (dfs_tuple e)[p]? = some se → n = I + 1 - dfs_tuple_size e + p →
    (Eval ops e I s).1.slots n = fwdSlotUpd ops s.vars s.phs se (s.slots n) := by
  induction e with
  | term l =>
      intro I s p se n hp hn
      match p with
      | 0 =>
          have hse : se = Expr.term l := by simpa [dfs_tuple] using hp.symm
          have hnI : n = I := by simp only [dfs_tuple_size] at hn; omega
          subst hse
          rw [hnI]
          simp only [Eval, setSlotAt, if_true]
          rfl
      | p + 1 => simp [dfs_tuple] at hp
  | un op a ih =>
      intro I s p se n hp hn
      have ha := length_dfs_tuple a
      have hpa := dfs_tuple_size_pos a
      have hlen : p < (dfs_tuple (Expr.un op a)).length := by
        by_contra hc
        rw [List.getElem?_eq_none (by omega)] at hp
        cases hp
      simp only [length_dfs_tuple, dfs_tuple_size] at hlen
      simp only [dfs_tuple_size] at hn
      push_cast at hn
      rcases Nat.lt_or_ge p (dfs_tuple_size a) with hlt | hge
      · -- inside the child subtree
        have hp' : (dfs_tuple a)[p]? = some se := by
          rw [dfs_tuple, List.getElem?_append_left (by omega)] at hp
          exact hp
        have hnotI : ¬ n = I := by omega
        simp only [Eval, setSlotAt]
        rw [if_neg hnotI]
        exact ih (I - 1) s p se n hp' (by push_cast <;> omega)
      · -- the node itself
        have hpe : p = dfs_tuple_size a := by omega
        have hse : se = Expr.un op a := by
          subst hpe
          rw [dfs_tuple, List.getElem?_append_right (by omega)] at hp
          simp [ha] at hp
          exact hp.symm
        have hnI : n = I := by omega
        subst hse
        rw [hnI]
        have hout := Eval_slots_out ops a (I - 1) s I (by right; omega)
        have hval := Eval_val ops a (I - 1) s
        simp only [Eval, setSlotAt, if_true]
        rw [hout, hval]
        rfl
  | bin op a b iha ihb =>
      intro I s p se n hp hn
      have ha := length_dfs_tuple a
      have hb := length_dfs_tuple b
      have hpa := dfs_tuple_size_pos a
      have hpb := dfs_tuple_size_pos b
      have hlen : p < (dfs_tuple (Expr.bin op a b)).length := by
        by_contra hc
        rw [List.getElem?_eq_none (by omega)] at hp
        cases hp
      simp only [length_dfs_tuple, dfs_tuple_size] at hlen
      simp only [dfs_tuple_size] at hn
      push_cast at hn
      have hr1 := Eval_preserves ops a (I - 1 - (dfs_tuple_size b : ℤ)) s
      rcases Nat.lt_or_ge p (dfs_tuple_size a) with hlt | hge
      · -- inside the first child's subtree
        have hp' : (dfs_tuple a)[p]? = some se := by
          rw [dfs_tuple, List.append_assoc, List.getElem?_append_left (by omega)] at hp
          exact hp
        have hnotI : ¬ n = I := by omega
        simp only [Eval, setSlotAt]
        rw [if_neg hnotI]
        rw [Eval_slots_out ops b (I - 1) _ n (by push_cast <;> omega)]
        exact iha (I - 1 - (dfs_tuple_size b : ℤ)) s p se n hp' (by push_cast <;> omega)
      · rcases Nat.lt_or_ge p (dfs_tuple_size a + dfs_tuple_size b) with hlt2 | hge2
        · -- inside the second child's subtree
          have hp' : (dfs_tuple b)[p - dfs_tuple_size a]? = some se := by
            rw [dfs_tuple, List.append_assoc, List.getElem?_append_right (by omega),
              List.getElem?_append_left (by simp only [length_dfs_tuple]; omega), ha] at hp
            exact hp
          have hnotI : ¬ n = I := by omega
          simp only [Eval, setSlotAt]
          rw [if_neg hnotI]
          have hstep := ihb (I - 1) (Eval ops a (I - 1 - (dfs_tuple_size b : ℤ)) s).1
            (p - dfs_tuple_size a) se n hp' (by push_cast <;> omega)
          rw [hstep, hr1.1, hr1.2.1]
          congr 1
          exact Eval_slots_out ops a (I - 1 - (dfs_tuple_size b : ℤ)) s n
            (by push_cast <;> omega)
        · -- the node itself
          have hpe : p = dfs_tuple_size a + dfs_tuple_size b := by omega
          have hse : se = Expr.bin op a b := by
            subst hpe
            rw [dfs_tuple, List.append_assoc, List.getElem?_append_right (by omega)] at hp
            rw [List.getElem?_append_right (by simp only [length_dfs_tuple]; omega)] at hp
            simp [ha, hb] at hp
            exact hp.symm
          have hnI : n = I := by omega
          subst hse
          rw [hnI]
          have houtb := Eval_slots_out ops b (I - 1)
            (Eval ops a (I - 1 - (dfs_tuple_size b : ℤ)) s).1 I (by right; omega)
          have houta := Eval_slots_out ops a (I - 1 - (dfs_tuple_size b : ℤ)) s I
            (by push_cast <;> omega)
          have hva := Eval_val ops a (I - 1 - (dfs_tuple_size b : ℤ)) s
          have hvb := Eval_val ops b (I - 1) (Eval ops a (I - 1 - (dfs_tuple_size b : ℤ)) s).1
          simp only [Eval, setSlotAt, if_true]
          rw [houtb, houta, hva, hvb, hr1.1, hr1.2.1]
          rfl

theorem ForwardPass_preserves [Field α] (ops : TOps α) (e : Expr α) (s : OptSt α) :
    (ForwardPass ops e s).vars = s.vars ∧ (ForwardPass ops e s).phs = s.phs := by
  have h := Eval_preserves ops e ((dfs_tuple_size e : ℤ) - 1) s
  exact ⟨h.1, h.2.1⟩

theorem ForwardPass_result [Field α] (ops : TOps α) (e : Expr α) (s : OptSt α) :
    (ForwardPass ops e s).result = exprVal ops s.vars s.phs e :=
  Eval_val ops e ((dfs_tuple_size e : ℤ) - 1) s

theorem ForwardPass_slots [Field α] (ops : TOps α) (e : Expr α) (s : OptSt α)
    (p : ℕ) (se : Expr α) (hp : (dfs_tuple e)[p]? = some se) :
    (ForwardPass ops e s).slots p = fwdSlotUpd ops s.vars s.phs se (s.slots p) := by
  have hlen : p < (dfs_tuple e).length := by
    by_contra hc
    rw [List.getElem?_eq_none (by omega)] at hp
    cases hp
  rw [length_dfs_tuple] at hlen
  exact Eval_slots_in ops e ((dfs_tuple_size e : ℤ) - 1) s p se p hp (by push_cast; omega)

theorem ForwardPass_slots_out [Field α] (ops : TOps α) (e : Expr α) (s : OptSt α)
    (n : ℤ) (h : n < 0 ∨ (dfs_tuple_size e : ℤ) ≤ n) :
    (ForwardPass ops e s).slots n = s.slots n := by
  have := dfs_tuple_size_pos e
  exact Eval_slots_out ops e ((dfs_tuple_size e : ℤ) - 1) s n (by omega)

theorem binLG1_eq_specLG1 [Field α] (ops : TOps α) (op : BinOp) (x y : α) :
    binLG1 ops op x y = specLG1 ops op x y := by
  cases op <;> rfl

theorem binLG2_eq_specLG2 [Field α] (ops : TOps α) (op : BinOp) (x y : α) :
    binLG2 ops op x y = specLG2 ops op x y := by
  cases op with
  | div =>
      show -x * (1 / y) * (1 / y) = -x / y ^ 2
      ring
  | _ => rfl

theorem unLG_eq_specULG [Field α] (ops : TOps α) (op : UnOp) (x : α) :
    unLG ops op x = specULG ops op x := by
  cases op with
  | tan =>
      show (1 / ops.cos x) * (1 / ops.cos x) = 1 / (ops.cos x) ^ 2
      ring
  | _ => rfl

theorem dfs_final_tuple_children (e : Expr α) :
    ∀ (I : ℤ) (p : ℕ) (nd : Node α), (dfs_final_tuple e I)[p]? = some nd →
    ∀ c ∈ childrenOf nd,
      I - dfs_tuple_size e ≤ c ∧ c < I - dfs_tuple_size e + p := by
  induction e with
  | term l =>
      intro I p nd hp c hc
      match p with
      | 0 =>
          have hnd : nd = Node.term l := by simpa [dfs_final_tuple] using hp.symm
          subst hnd
          simp [childrenOf] at hc
      | p + 1 => simp [dfs_final_tuple] at hp
  | un op a ih =>
      intro I p nd hp c hc
      have ha := length_dfs_final_tuple a (I - 1)
      have hpa := dfs_tuple_size_pos a
      have hlen : p < (dfs_final_tuple (Expr.un op a) I).length := by
        by_contra hc2
        rw [List.getElem?_eq_none (by omega)] at hp
        cases hp
      rw [length_dfs_final_tuple] at hlen
      simp only [dfs_tuple_size] at hlen
      rcases Nat.lt_or_ge p (dfs_tuple_size a) with hlt | hge
      · have hp' : (dfs_final_tuple a (I - 1))[p]? = some nd := by
          rw [dfs_final_tuple, List.getElem?_append_left (by omega)] at hp
          exact hp
        have := ih (I - 1) p nd hp' c hc
        simp only [dfs_tuple_size]
        push_cast at this ⊢
        omega
      · have hpe : p = dfs_tuple_size a := by omega
        have hnd : nd = Node.un op (I - 2) := by
          subst hpe
          rw [dfs_final_tuple, List.getElem?_append_right (by omega)] at hp
          simp [ha] at hp
          exact hp.symm
        subst hnd hpe
        simp only [childrenOf, List.mem_singleton] at hc
        subst hc
        simp only [dfs_tuple_size]
        push_cast
        omega
  | bin op a b iha ihb =>
      intro I p nd hp c hc
      have ha := length_dfs_final_tuple a (I - 1 - (dfs_tuple_size b : ℤ))
      have hb := length_dfs_final_tuple b (I - 1)
      have hpa := dfs_tuple_size_pos a
      have hpb := dfs_tuple_size_pos b
      have hlen : p < (dfs_final_tuple (Expr.bin op a b) I).length := by
        by_contra hc2
        rw [List.getElem?_eq_none (by omega)] at hp
        cases hp
      rw [length_dfs_final_tuple] at hlen
      simp only [dfs_tuple_size] at hlen
      rcases Nat.lt_or_ge p (dfs_tuple_size a) with hlt | hge
      · have hp' : (dfs_final_tuple a (I - 1 - (dfs_tuple_size b : ℤ)))[p]? = some nd := by
          rw [dfs_final_tuple, List.append_assoc,
            List.getElem?_append_left (by omega)] at hp
          exact hp
        have := iha (I - 1 - (dfs_tuple_size b : ℤ)) p nd hp' c hc
        simp only [dfs_tuple_size]
        push_cast at this ⊢
        omega
      · rcases Nat.lt_or_ge p (dfs_tuple_size a + dfs_tuple_size b) with hlt2 | hge2
        · have hp' : (dfs_final_tuple b (I - 1))[p - dfs_tuple_size a]? = some nd := by
            rw [dfs_final_tuple, List.append_assoc,
              List.getElem?_append_right (by omega),
              List.getElem?_append_left (by simp only [length_dfs_final_tuple]; omega),
              ha] at hp
            exact hp
          have := ihb (I - 1) (p - dfs_tuple_size a) nd hp' c hc
          simp only [dfs_tuple_size]
          push_cast at this ⊢
          omega
        · have hpe : p = dfs_tuple_size a + dfs_tuple_size b := by omega
          have hnd : nd = Node.bin op (I - 2 - (dfs_tuple_size b : ℤ)) (I - 2) := by
            subst hpe
            rw [dfs_final_tuple, List.append_assoc,
              List.getElem?_append_right (by omega),
              List.getElem?_append_right (by simp only [length_dfs_final_tuple]; omega)] at hp
            simp [ha, hb] at hp
            exact hp.symm
          subst hnd hpe
          simp only [childrenOf, List.mem_cons, List.mem_singleton] at hc
          simp only [dfs_tuple_size]
          rcases hc with hc | hc | hc
          · subst hc; push_cast; omega
          · subst hc; push_cast; omega
          · cases hc

theorem dfs_final_tuple_getLast (e : Expr α) (I : ℤ) :
    (dfs_final_tuple e I).getLast? = some (match e with
      | .term l => Node.term l
      | .un op _ => Node.un op (I - 2)
      | .bin op _ b => Node.bin op (I - 2 - (dfs_tuple_size b : ℤ)) (I - 2)) := by
  cases e with
  | term l => rfl
  | un op a =>
      show (dfs_final_tuple a (I - 1) ++ [Node.un op (I - 2)]).getLast? = _
      rw [List.getLast?_concat]
  | bin op a b =>
      show ((dfs_final_tuple a (I - 1 - (dfs_tuple_size b : ℤ)) ++ dfs_final_tuple b (I - 1)) ++
        [Node.bin op (I - 2 - (dfs_tuple_size b : ℤ)) (I - 2)]).getLast? = _
      rw [List.getLast?_concat]

theorem backWalk_bind [Field α] (lr : α) (l1 l2 : List (ℕ × Node α)) (s : OptSt α) :
    backWalk lr (l1 ++ l2) s = (backWalk lr l1 s).bind (backWalk lr l2) := by
  induction l1 generalizing s with
  | nil => rfl
  | cons p rest ih =>
      show (backStep lr p.1 p.2 s).bind (backWalk lr (rest ++ l2)) =
        ((backStep lr p.1 p.2 s).bind (backWalk lr rest)).bind (backWalk lr l2)
      cases backStep lr p.1 p.2 s with
      | none => rfl
      | some s1 => exact ih s1

theorem resetGradAt_slots [Field α] (s : OptSt α) (m n : ℤ) :
    (resetGradAt s m).slots n = if n = m then { s.slots n with grad := 0 } else s.slots n := rfl

theorem AddMyGrad_slots [Field α] (s : OptSt α) (m n : ℤ) (g : α) :
    (AddMyGrad s m g).slots n =
      if n = m then { s.slots n with grad := (s.slots n).grad + g } else s.slots n := rfl

theorem resetGradAt_rest [Field α] (s : OptSt α) (m : ℤ) :
    (resetGradAt s m).vars = s.vars ∧ (resetGradAt s m).phs = s.phs ∧
      (resetGradAt s m).result = s.result := ⟨rfl, rfl, rfl⟩

theorem AddMyGrad_rest [Field α] (s : OptSt α) (m : ℤ) (g : α) :
    (AddMyGrad s m g).vars = s.vars ∧ (AddMyGrad s m g).phs = s.phs ∧
      (AddMyGrad s m g).result = s.result := ⟨rfl, rfl, rfl⟩

theorem fwdSlotUpd_grad [Field α] (ops : TOps α) (V : ℕ → α) (P : ℕ → Ph α)
    (se : Expr α) (sl : Slot α) (x : α) :
    { fwdSlotUpd ops V P se sl with grad := x } = fwdSlotUpd ops V P se { sl with grad := x } := by
  cases se <;> rfl

theorem fwdSlotUpd_grad_eq [Field α] (ops : TOps α) (V : ℕ → α) (P : ℕ → Ph α)
    (se : Expr α) (sl : Slot α) :
    (fwdSlotUpd ops V P se sl).grad = sl.grad := by
  cases se <;> rfl

theorem enum_rev_term (b : ℕ) (I : ℤ) (l : Leaf α) :
    (enumF b (dfs_final_tuple (Expr.term l) I)).reverse = [(b, Node.term l)] := rfl

theorem enum_rev_un (b : ℕ) (I : ℤ) (op : UnOp) (a : Expr α) :
    (enumF b (dfs_final_tuple (Expr.un op a) I)).reverse =
      (b + dfs_tuple_size a, Node.un op (I - 2)) ::
        (enumF b (dfs_final_tuple a (I - 1))).reverse := by
  show (enumF b (dfs_final_tuple a (I - 1) ++ [Node.un op (I - 2)])).reverse = _
  rw [enumF_append, length_dfs_final_tuple]
  simp [enumF, List.reverse_append]

theorem enum_rev_bin (b : ℕ) (I : ℤ) (op : BinOp) (a c : Expr α) :
    (enumF b (dfs_final_tuple (Expr.bin op a c) I)).reverse =
      (b + dfs_tuple_size a + dfs_tuple_size c,
        Node.bin op (I - 2 - (dfs_tuple_size c : ℤ)) (I - 2)) ::
      ((enumF (b + dfs_tuple_size a) (dfs_final_tuple c (I - 1))).reverse ++
        (enumF b (dfs_final_tuple a (I - 1 - (dfs_tuple_size c : ℤ)))).reverse) := by
  show (enumF b ((dfs_final_tuple a (I - 1 - (dfs_tuple_size c : ℤ)) ++
      dfs_final_tuple c (I - 1)) ++
      [Node.bin op (I - 2 - (dfs_tuple_size c : ℤ)) (I - 2)])).reverse = _
  rw [enumF_append, enumF_append, List.length_append, length_dfs_final_tuple,
    length_dfs_final_tuple]
  simp [enumF, List.reverse_append, Nat.add_assoc]

theorem walk_frame_zero [Field α] (lr : α) (e : Expr α) :
    ∀ (b : ℕ) (I : ℤ) (s s' : OptSt α), I = (b : ℤ) + dfs_tuple_size e →
    backWalk lr (enumF b (dfs_final_tuple e I)).reverse s = some s' →
    (∀ n : ℤ, (n < (b : ℤ) ∨ (b : ℤ) + dfs_tuple_size e ≤ n) → s'.slots n = s.slots n) ∧
    (∀ p : ℕ, p < dfs_tuple_size e → (s'.slots ((b : ℤ) + p)).grad = 0) := by
  induction e with
  | term l =>
      intro b I s s' hI hw
      rw [enum_rev_term] at hw
      have hw' : (backStep lr b (Node.term l) s).bind (backWalk lr []) = some s' := hw
      have key : ∀ s0 : OptSt α, s' = resetGradAt s0 (b : ℤ) → s0.slots = s.slots →
          (∀ n : ℤ, (n < (b : ℤ) ∨ (b : ℤ) + dfs_tuple_size (Expr.term l) ≤ n) →
            s'.slots n = s.slots n) ∧
          (∀ p : ℕ, p < dfs_tuple_size (Expr.term l) → (s'.slots ((b : ℤ) + p)).grad = 0) := by
        intro s0 hs' hsl
        subst hs'
        constructor
        · intro n hn
          rw [resetGradAt_slots, if_neg (by simp only [dfs_tuple_size] at hn; omega), hsl]
        · intro p hp
          have hp0 : p = 0 := by simp only [dfs_tuple_size] at hp; omega
          subst hp0
          rw [resetGradAt_slots]
          simp
      cases l with
      | cst v =>
          simp only [backStep, Option.some_bind, backWalk] at hw'
          exact key _ (Option.some.inj hw').symm rfl
      | var j =>
          by_cases hset : (s.slots (b : ℤ)).exprSet
          · rw [backStep] at hw'
            simp only [hset, if_true, Option.some_bind, backWalk] at hw'
            exact key _ (Option.some.inj hw').symm rfl
          · rw [backStep] at hw'
            simp only [hset] at hw'
            simp at hw'
      | ph j =>
          simp only [backStep, Option.some_bind, backWalk] at hw'
          exact key _ (Option.some.inj hw').symm rfl
  | un op a ih =>
      intro b I s s' hI hw
      have hpa := dfs_tuple_size_pos a
      simp only [dfs_tuple_size] at hI
      rw [enum_rev_un] at hw
      have hw' : (backStep lr (b + dfs_tuple_size a) (Node.un op (I - 2)) s).bind
          (backWalk lr (enumF b (dfs_final_tuple a (I - 1))).reverse) = some s' := hw
      simp only [backStep, Option.some_bind] at hw'
      set s1 := resetGradAt (AddMyGrad s (I - 2)
        ((s.slots ((b + dfs_tuple_size a : ℕ) : ℤ)).grad *
          (s.slots ((b + dfs_tuple_size a : ℕ) : ℤ)).lg1)) ((b + dfs_tuple_size a : ℕ) : ℤ)
        with hs1
      have hsub := ih b (I - 1) s1 s'
        (by push_cast at hI ⊢; omega) hw'
      have hs1n : ∀ n : ℤ, n ≠ ((b + dfs_tuple_size a : ℕ) : ℤ) → n ≠ I - 2 →
          s1.slots n = s.slots n := by
        intro n h1 h2
        rw [hs1, resetGradAt_slots, if_neg h1, AddMyGrad_slots, if_neg h2]
      constructor
      · intro n hn
        simp only [dfs_tuple_size] at hn
        rw [hsub.1 n (by push_cast at hn ⊢; omega)]
        exact hs1n n (by push_cast at hn ⊢; omega) (by push_cast at hn ⊢; omega)
      · intro p hp
        simp only [dfs_tuple_size] at hp
        rcases Nat.lt_or_ge p (dfs_tuple_size a) with hlt | hge
        · exact hsub.2 p hlt
        · have hpe : p = dfs_tuple_size a := by omega
          subst hpe
          rw [hsub.1 ((b : ℤ) + dfs_tuple_size a) (by push_cast; omega)]
          rw [hs1, resetGradAt_slots, if_pos (by push_cast; omega)]
  | bin op a c iha ihc =>
      intro b I s s' hI hw
      have hpa := dfs_tuple_size_pos a
      have hpc := dfs_tuple_size_pos c
      simp only [dfs_tuple_size] at hI
      rw [enum_rev_bin] at hw
      have hw' : (backStep lr (b + dfs_tuple_size a + dfs_tuple_size c)
          (Node.bin op (I - 2 - (dfs_tuple_size c : ℤ)) (I - 2)) s).bind
          (backWalk lr ((enumF (b + dfs_tuple_size a) (dfs_final_tuple c (I - 1))).reverse ++
            (enumF b (dfs_final_tuple a (I - 1 - (dfs_tuple_size c : ℤ)))).reverse)) = some s' := hw
      simp only [backStep, Option.some_bind] at hw'
      rw [backWalk_bind] at hw'
      obtain ⟨s2, hwc, hwa⟩ := Option.bind_eq_some.1 hw'
      set rt := ((b + dfs_tuple_size a + dfs_tuple_size c : ℕ) : ℤ) with hrt
      set sA := AddMyGrad s (I - 2 - (dfs_tuple_size c : ℤ)) ((s.slots rt).grad * (s.slots rt).lg1)
        with hsA
      set s1 := resetGradAt (AddMyGrad sA (I - 2) ((sA.slots rt).grad * (sA.slots rt).lg2)) rt
        with hs1
      have hsubc := ihc (b + dfs_tuple_size a) (I - 1) s1 s2
        (by push_cast at hI ⊢; omega) hwc
      have hsuba := iha b (I - 1 - (dfs_tuple_size c : ℤ)) s2 s'
        (by push_cast at hI ⊢; omega) hwa
      have hs1n : ∀ n : ℤ, n ≠ rt → n ≠ I - 2 → n ≠ I - 2 - (dfs_tuple_size c : ℤ) →
          s1.slots n = s.slots n := by
        intro n h1 h2 h3
        rw [hs1, resetGradAt_slots, if_neg h1, AddMyGrad_slots, if_neg h2, hsA,
          AddMyGrad_slots, if_neg h3]
      constructor
      · intro n hn
        simp only [dfs_tuple_size] at hn
        rw [hsuba.1 n (by push_cast at hn ⊢; omega)]
        rw [hsubc.1 n (by push_cast at hn ⊢; omega)]
        exact hs1n n (by rw [hrt]; push_cast at hn ⊢; omega)
          (by push_cast at hn ⊢; omega) (by push_cast at hn ⊢; omega)
      · intro p hp
        simp only [dfs_tuple_size] at hp
        rcases Nat.lt_or_ge p (dfs_tuple_size a) with hlt | hge
        · exact hsuba.2 p hlt
        · rcases Nat.lt_or_ge p (dfs_tuple_size a + dfs_tuple_size c) with hlt2 | hge2
          · have hq := hsubc.2 (p - dfs_tuple_size a) (by omega)
            have harith : ((b + dfs_tuple_size a : ℕ) : ℤ) + ((p - dfs_tuple_size a : ℕ) : ℤ) =
                (b : ℤ) + p := by push_cast; omega
            rw [harith] at hq
            rw [hsuba.1 ((b : ℤ) + p) (by push_cast; omega)]
            exact hq
          · have hpe : p = dfs_tuple_size a + dfs_tuple_size c := by omega
            subst hpe
            rw [hsuba.1 _ (by push_cast; omega)]
            rw [hsubc.1 _ (by push_cast; omega)]
            rw [hs1, resetGradAt_slots, if_pos (by rw [hrt]; push_cast; omega)]

theorem backStep_exprSet [Field α] {lr : α} {i : ℕ} {nd : Node α} {s s' : OptSt α}
    (h : backStep lr i nd s = some s') (n : ℤ) :
    (s'.slots n).exprSet = (s.slots n).exprSet := by
  cases nd with
  | term l =>
      cases l with
      | cst v =>
          have hs' : s' = resetGradAt s (i : ℤ) := (Option.some.inj h).symm
          subst hs'
          rw [resetGradAt_slots]
          split <;> rfl
      | var j =>
          by_cases hset : (s.slots (i : ℤ)).exprSet
          · rw [backStep] at h
            simp only [hset, if_true] at h
            have hs' := (Option.some.inj h).symm
            subst hs'
            rw [resetGradAt_slots]
            split <;> rfl
          · rw [backStep] at h
            simp only [hset] at h
            simp at h
      | ph j =>
          have hs' : s' = resetGradAt s (i : ℤ) := (Option.some.inj h).symm
          subst hs'
          rw [resetGradAt_slots]
          split <;> rfl
  | un op c1 =>
      have hs' := (Option.some.inj h).symm
      subst hs'
      rw [resetGradAt_slots, AddMyGrad_slots]
      split <;> (try split) <;> rfl
  | bin op c1 c2 =>
      have hs' := (Option.some.inj h).symm
      subst hs'
      rw [resetGradAt_slots, AddMyGrad_slots, AddMyGrad_slots]
      split <;> (try split) <;> (try split) <;> rfl

theorem backWalk_none_of_var [Field α] (lr : α) :
    ∀ (lst : List (ℕ × Node α)) (s : OptSt α),
    (∃ i j, (i, Node.term (Leaf.var j)) ∈ lst) →
    (∀ n : ℤ, (s.slots n).exprSet = false) →
    backWalk lr lst s = none := by
  intro lst
  induction lst with
  | nil =>
      rintro s ⟨i, j, hmem⟩ _
      cases hmem
  | cons hd rest ih =>
      rintro s ⟨i, j, hmem⟩ hset
      rcases List.mem_cons.1 hmem with heq | hmem'
      · subst heq
        show (backStep lr i (Node.term (Leaf.var j)) s).bind (backWalk lr rest) = none
        rw [backStep]
        simp only [hset (i : ℤ)]
        rfl
      · show (backStep lr hd.1 hd.2 s).bind (backWalk lr rest) = none
        cases hstep : backStep lr hd.1 hd.2 s with
        | none => rfl
        | some s1 =>
            simp only [Option.some_bind]
            exact ih s1 ⟨i, j, hmem'⟩
              (fun n => by rw [backStep_exprSet hstep n]; exact hset n)

theorem var_mem_dfs_final_tuple (e : Expr α) :
    ∀ (I : ℤ), hasVar e = true → ∃ j, Node.term (Leaf.var j) ∈ dfs_final_tuple e I := by
  induction e with
  | term l =>
      intro I hv
      cases l with
      | cst v => simp [hasVar] at hv
      | var j => exact ⟨j, by simp [dfs_final_tuple]⟩
      | ph j => simp [hasVar] at hv
  | un op a ih =>
      intro I hv
      rcases ih (I - 1) hv with ⟨j, hj⟩
      exact ⟨j, by simp [dfs_final_tuple, List.mem_append, hj]⟩
  | bin op a c iha ihc =>
      intro I hv
      rcases Bool.or_eq_true_iff.1 hv with hv' | hv'
      · rcases iha (I - 1 - (dfs_tuple_size c : ℤ)) hv' with ⟨j, hj⟩
        exact ⟨j, by simp [dfs_final_tuple, List.mem_append, hj]⟩
      · rcases ihc (I - 1) hv' with ⟨j, hj⟩
        exact ⟨j, by simp [dfs_final_tuple, List.mem_append, hj]⟩

theorem walk_vars [Field α] (ops : TOps α) (e : Expr α) :
    ∀ (lr g : α) (b : ℕ) (I : ℤ) (V : ℕ → α) (P : ℕ → Ph α) (s : OptSt α),
    I = (b : ℤ) + dfs_tuple_size e →
    (∀ (p : ℕ) (se : Expr α), (dfs_tuple e)[p]? = some se →
        s.slots ((b : ℤ) + p) = fwdSlotUpd ops V P se
          ⟨false, if p = dfs_tuple_size e - 1 then g else 0, 0, 0⟩) →
    ∃ s', backWalk lr (enumF b (dfs_final_tuple e I)).reverse s = some s' ∧
      (∀ j, s'.vars j = s.vars j + lr * adjSum ops V P e g j) ∧
      (∀ n : ℤ, (n < (b : ℤ) ∨ (b : ℤ) + dfs_tuple_size e ≤ n) → s'.slots n = s.slots n) ∧
      s'.phs = s.phs ∧ s'.result = s.result := by
  induction e with
  | term l =>
      intro lr g b I V P s hI hdesc
      cases l with
      | cst v =>
          refine ⟨resetGradAt s (b : ℤ), rfl, ?_, ?_, rfl, rfl⟩
          · intro j
            show s.vars j = s.vars j + lr * (0 : α)
            rw [mul_zero, add_zero]
          · intro n hn
            rw [resetGradAt_slots, if_neg (by simp only [dfs_tuple_size] at hn; omega)]
      | var i =>
          have hslot : s.slots ((b : ℤ)) = ⟨true, g, 0, 0⟩ := by
            have h := hdesc 0 (Expr.term (Leaf.var i)) rfl
            simpa [fwdSlotUpd] using h
          have hset : (s.slots ((b : ℕ) : ℤ)).exprSet = true := by rw [hslot]
          refine ⟨resetGradAt
            { s with vars := fun k => if k = i then s.vars k + lr * (s.slots ((b : ℕ) : ℤ)).grad
                else s.vars k } ((b : ℕ) : ℤ), ?_, ?_, ?_, rfl, rfl⟩
          · show (backStep lr b (Node.term (Leaf.var i)) s).bind (backWalk lr []) = _
            rw [backStep]
            simp only [hset, if_true]
            rfl
          · intro j
            have hg : (s.slots ((b : ℕ) : ℤ)).grad = g := by rw [hslot]
            show (if j = i then s.vars j + lr * (s.slots ((b : ℕ) : ℤ)).grad else s.vars j) =
              s.vars j + lr * (if i = j then g else 0)
            rw [hg]
            by_cases hji : j = i
            · rw [if_pos hji, if_pos (hji.symm)]
            · rw [if_neg hji, if_neg (fun hc => hji hc.symm), mul_zero, add_zero]
          · intro n hn
            rw [resetGradAt_slots, if_neg (by simp only [dfs_tuple_size] at hn; omega)]
      | ph i =>
          refine ⟨resetGradAt s (b : ℤ), rfl, ?_, ?_, rfl, rfl⟩
          · intro j
            show s.vars j = s.vars j + lr * (0 : α)
            rw [mul_zero, add_zero]
          · intro n hn
            rw [resetGradAt_slots, if_neg (by simp only [dfs_tuple_size] at hn; omega)]
  | un op a ih =>
      intro lr g b I V P s hI hdesc
      have hpa := dfs_tuple_size_pos a
      simp only [dfs_tuple_size] at hI
      have hcast : ((b + dfs_tuple_size a : ℕ) : ℤ) = (b : ℤ) + (dfs_tuple_size a : ℤ) := by
        push_cast
        ring
      have hroot : s.slots (((b + dfs_tuple_size a : ℕ) : ℤ)) =
          ⟨true, g, unLG ops op (exprVal ops V P a), 0⟩ := by
        have hp : (dfs_tuple (Expr.un op a))[dfs_tuple_size a]? = some (Expr.un op a) := by
          have h := dfs_tuple_getElem_last (Expr.un op a)
          simpa [dfs_tuple_size] using h
        have h := hdesc (dfs_tuple_size a) (Expr.un op a) hp
        rw [hcast]
        simpa [fwdSlotUpd, dfs_tuple_size] using h
      set g1 := g * unLG ops op (exprVal ops V P a) with hg1
      set s1 := resetGradAt (AddMyGrad s (I - 2) g1) (((b + dfs_tuple_size a : ℕ) : ℤ))
        with hs1
      have hdesc1 : ∀ (p : ℕ) (se : Expr α), (dfs_tuple a)[p]? = some se →
          s1.slots ((b : ℤ) + p) = fwdSlotUpd ops V P se
            ⟨false, if p = dfs_tuple_size a - 1 then g1 else 0, 0, 0⟩ := by
        intro p se hp
        have hplen : p < (dfs_tuple a).length := by
          by_contra hc
          rw [List.getElem?_eq_none (by omega)] at hp
          cases hp
        rw [length_dfs_tuple] at hplen
        have hpe : (dfs_tuple (Expr.un op a))[p]? = some se := by
          rw [dfs_tuple, List.getElem?_append_left (by rw [length_dfs_tuple]; omega)]
          exact hp
        have hse := hdesc p se hpe
        rw [if_neg (by simp only [dfs_tuple_size]; omega)] at hse
        rw [hs1, resetGradAt_slots, if_neg (by rw [hcast]; push_cast; omega),
          AddMyGrad_slots]
        by_cases hpn : p = dfs_tuple_size a - 1
        · rw [if_pos (by push_cast at hI ⊢; omega), hse, fwdSlotUpd_grad_eq, fwdSlotUpd_grad,
            if_pos hpn]
          rw [zero_add]
        · rw [if_neg (by push_cast at hI ⊢; omega), hse, if_neg hpn]
      rcases ih lr g1 b (I - 1) V P s1 (by push_cast at hI ⊢; omega) hdesc1 with
        ⟨s', hw', hv', hf', hphs', hres'⟩
      refine ⟨s', ?_, ?_, ?_, ?_, ?_⟩
      · rw [enum_rev_un]
        show (backStep lr (b + dfs_tuple_size a) (Node.un op (I - 2)) s).bind
          (backWalk lr (enumF b (dfs_final_tuple a (I - 1))).reverse) = some s'
        rw [backStep]
        simp only [hroot]
        simpa [hs1, hg1] using hw'
      · intro j
        rw [hv' j]
        rfl
      · intro n hn
        simp only [dfs_tuple_size] at hn
        rw [hf' n (by push_cast at hn ⊢; omega), hs1, resetGradAt_slots,
          if_neg (by rw [hcast]; push_cast at hn ⊢; omega), AddMyGrad_slots,
          if_neg (by push_cast at hn hI ⊢; omega)]
      · exact hphs'
      · exact hres'
  | bin op a c iha ihc =>
      intro lr g b I V P s hI hdesc
      have hpa := dfs_tuple_size_pos a
      have hpc := dfs_tuple_size_pos c
      have hla := length_dfs_tuple a
      have hlc := length_dfs_tuple c
      simp only [dfs_tuple_size] at hI
      have hcast : ((b + dfs_tuple_size a + dfs_tuple_size c : ℕ) : ℤ) =
          (b : ℤ) + (dfs_tuple_size a : ℤ) + (dfs_tuple_size c : ℤ) := by
        push_cast
        ring
      set va := exprVal ops V P a with hva
      set vc := exprVal ops V P c with hvc
      have hroot : s.slots (((b + dfs_tuple_size a + dfs_tuple_size c : ℕ) : ℤ)) =
          ⟨true, g, binLG1 ops op va vc, binLG2 ops op va vc⟩ := by
        have hp : (dfs_tuple (Expr.bin op a c))[dfs_tuple_size a + dfs_tuple_size c]? =
            some (Expr.bin op a c) := by
          have h := dfs_tuple_getElem_last (Expr.bin op a c)
          simpa [dfs_tuple_size] using h
        have h := hdesc (dfs_tuple_size a + dfs_tuple_size c) (Expr.bin op a c) hp
        have hceq : ((b + dfs_tuple_size a + dfs_tuple_size c : ℕ) : ℤ) =
            (b : ℤ) + ((dfs_tuple_size a + dfs_tuple_size c : ℕ) : ℤ) := by
          push_cast
          ring
        rw [hceq, h, if_pos (by simp only [dfs_tuple_size]; omega)]
        rfl
      set g1 := g * binLG1 ops op va vc with hg1
      set g2 := g * binLG2 ops op va vc with hg2
      set rt := ((b + dfs_tuple_size a + dfs_tuple_size c : ℕ) : ℤ) with hrt
      set sA := AddMyGrad s (I - 2 - (dfs_tuple_size c : ℤ)) g1 with hsA
      set s1 := resetGradAt (AddMyGrad sA (I - 2) g2) rt with hs1
      have hs1n : ∀ n : ℤ, n ≠ rt → n ≠ I - 2 → n ≠ I - 2 - (dfs_tuple_size c : ℤ) →
          s1.slots n = s.slots n := by
        intro n h1 h2 h3
        rw [hs1, resetGradAt_slots, if_neg h1, AddMyGrad_slots, if_neg h2, hsA,
          AddMyGrad_slots, if_neg h3]
      have hdescC : ∀ (q : ℕ) (se : Expr α), (dfs_tuple c)[q]? = some se →
          s1.slots (((b + dfs_tuple_size a : ℕ) : ℤ) + q) = fwdSlotUpd ops V P se
            ⟨false, if q = dfs_tuple_size c - 1 then g2 else 0, 0, 0⟩ := by
        intro q se hq
        have hqlen : q < dfs_tuple_size c := by
          by_contra hcq
          rw [List.getElem?_eq_none (by omega)] at hq
          cases hq
        have hqe : (dfs_tuple (Expr.bin op a c))[dfs_tuple_size a + q]? = some se := by
          rw [dfs_tuple, List.append_assoc, List.getElem?_append_right (by omega),
            List.getElem?_append_left (by rw [length_dfs_tuple]; omega), hla]
          simpa using hq
        have hse := hdesc (dfs_tuple_size a + q) se hqe
        rw [if_neg (by simp only [dfs_tuple_size]; omega)] at hse
        have hposcast : ((b + dfs_tuple_size a : ℕ) : ℤ) + (q : ℤ) =
            (b : ℤ) + ((dfs_tuple_size a + q : ℕ) : ℤ) := by
          push_cast
          ring
        rw [hposcast]
        by_cases hqn : q = dfs_tuple_size c - 1
        · rw [hs1, resetGradAt_slots, if_neg (by rw [hrt]; push_cast; omega),
            AddMyGrad_slots, if_pos (by push_cast at hI ⊢; omega), hsA, AddMyGrad_slots,
            if_neg (by push_cast at hI ⊢; omega), hse, fwdSlotUpd_grad_eq, fwdSlotUpd_grad,
            if_pos hqn]
          rw [zero_add]
        · rw [hs1n _ (by rw [hrt]; push_cast; omega) (by push_cast at hI ⊢; omega)
            (by push_cast at hI ⊢; omega), hse, if_neg hqn]
      rcases ihc lr g2 (b + dfs_tuple_size a) (I - 1) V P s1
        (by push_cast at hI ⊢; omega) hdescC with ⟨s2, hwC, hvC, hfC, hphsC, hresC⟩
      have hdescA : ∀ (p : ℕ) (se : Expr α), (dfs_tuple a)[p]? = some se →
          s2.slots ((b : ℤ) + p) = fwdSlotUpd ops V P se
            ⟨false, if p = dfs_tuple_size a - 1 then g1 else 0, 0, 0⟩ := by
        intro p se hp
        have hplen : p < dfs_tuple_size a := by
          by_contra hcq
          rw [List.getElem?_eq_none (by omega)] at hp
          cases hp
        have hpe : (dfs_tuple (Expr.bin op a c))[p]? = some se := by
          rw [dfs_tuple, List.append_assoc, List.getElem?_append_left (by omega)]
          exact hp
        have hse := hdesc p se hpe
        rw [if_neg (by simp only [dfs_tuple_size]; omega)] at hse
        rw [hfC _ (by push_cast; omega)]
        by_cases hpn : p = dfs_tuple_size a - 1
        · rw [hs1, resetGradAt_slots, if_neg (by rw [hrt]; push_cast; omega),
            AddMyGrad_slots, if_neg (by push_cast at hI ⊢; omega), hsA, AddMyGrad_slots,
            if_pos (by push_cast at hI ⊢; omega), hse, fwdSlotUpd_grad_eq, fwdSlotUpd_grad,
            if_pos hpn]
          rw [zero_add]
        · rw [hs1n _ (by rw [hrt]; push_cast; omega) (by push_cast at hI ⊢; omega)
            (by push_cast at hI ⊢; omega), hse, if_neg hpn]
      rcases iha lr g1 b (I - 1 - (dfs_tuple_size c : ℤ)) V P s2
        (by push_cast at hI ⊢; omega) hdescA with ⟨s', hwA, hvA, hfA, hphsA, hresA⟩
      refine ⟨s', ?_, ?_, ?_, ?_, ?_⟩
      · rw [enum_rev_bin]
        show (backStep lr (b + dfs_tuple_size a + dfs_tuple_size c)
            (Node.bin op (I - 2 - (dfs_tuple_size c : ℤ)) (I - 2)) s).bind
          (backWalk lr ((enumF (b + dfs_tuple_size a) (dfs_final_tuple c (I - 1))).reverse ++
            (enumF b (dfs_final_tuple a (I - 1 - (dfs_tuple_size c : ℤ)))).reverse)) = some s'
        have hne : ¬ rt = I - 2 - (dfs_tuple_size c : ℤ) := by
          rw [hrt]
          push_cast at hI ⊢
          omega
        have hstep : backStep lr (b + dfs_tuple_size a + dfs_tuple_size c)
            (Node.bin op (I - 2 - (dfs_tuple_size c : ℤ)) (I - 2)) s = some s1 := by
          show some (resetGradAt (AddMyGrad (AddMyGrad s (I - 2 - (dfs_tuple_size c : ℤ))
              ((s.slots rt).grad * (s.slots rt).lg1)) (I - 2)
              (((AddMyGrad s (I - 2 - (dfs_tuple_size c : ℤ))
                ((s.slots rt).grad * (s.slots rt).lg1)).slots rt).grad *
               ((AddMyGrad s (I - 2 - (dfs_tuple_size c : ℤ))
                ((s.slots rt).grad * (s.slots rt).lg1)).slots rt).lg2)) rt) = some s1
          rw [AddMyGrad_slots, if_neg hne, hroot, hs1, hsA, hg1, hg2]
        rw [hstep, Option.some_bind, backWalk_bind, hwC, Option.some_bind, hwA]
      · intro j
        rw [hvA j, hvC j]
        have hs1v : s1.vars = s.vars := rfl
        rw [hs1v]
        show s.vars j + lr * adjSum ops V P c g2 j + lr * adjSum ops V P a g1 j =
          s.vars j + lr * (adjSum ops V P a g1 j + adjSum ops V P c g2 j)
        ring
      · intro n hn
        simp only [dfs_tuple_size] at hn
        rw [hfA n (by push_cast at hn ⊢; omega), hfC n (by push_cast at hn ⊢; omega)]
        exact hs1n n (by rw [hrt]; push_cast at hn ⊢; omega)
          (by push_cast at hn hI ⊢; omega) (by push_cast at hn hI ⊢; omega)
      · rw [hphsA, hphsC]
        rfl
      · rw [hresA, hresC]
        rfl

theorem dfs_tuple_size_mapVal (f : α → β) (e : Expr α) :
    dfs_tuple_size (mapVal f e) = dfs_tuple_size e := by
  induction e with
  | term l => cases l <;> rfl
  | un op a ih => simp [mapVal, dfs_tuple_size, ih]
  | bin op a b iha ihb => simp [mapVal, dfs_tuple_size, iha, ihb]

theorem seeded_desc [Field α] (ops : TOps α) (e : Expr α) (V : ℕ → α) (P : ℕ → Ph α) :
    ∀ (p : ℕ) (se : Expr α), (dfs_tuple e)[p]? = some se →
    (AddMyGrad (ForwardPass ops e (initSt V P)) ((dfs_tuple_size e : ℤ) - 1) 1).slots
        (((0 : ℕ) : ℤ) + p) =
      fwdSlotUpd ops V P se ⟨false, if p = dfs_tuple_size e - 1 then 1 else 0, 0, 0⟩ := by
  intro p se hp
  have hplen : p < dfs_tuple_size e := by
    by_contra hc
    rw [List.getElem?_eq_none (by rw [length_dfs_tuple]; omega)] at hp
    cases hp
  have hfwd := ForwardPass_slots ops e (initSt V P) p se hp
  have hz : (((0 : ℕ) : ℤ) + p) = (p : ℤ) := by push_cast; ring
  rw [hz, AddMyGrad_slots]
  by_cases hpn : p = dfs_tuple_size e - 1
  · rw [if_pos (by omega), hfwd]
    show { fwdSlotUpd ops V P se Slot.init with
      grad := (fwdSlotUpd ops V P se Slot.init).grad + 1 } = _
    rw [fwdSlotUpd_grad_eq, fwdSlotUpd_grad, if_pos hpn]
    show fwdSlotUpd ops V P se { Slot.init with grad := (0 : α) + 1 } = _
    rw [zero_add]
    rfl
  · rw [if_neg (by omega), hfwd, if_neg hpn]
    rfl

theorem Minimize_fresh [Field α] (ops : TOps α) (e : Expr α) (V : ℕ → α) (P : ℕ → Ph α)
    (lr : α) :
    ∃ s', Minimize lr e (ForwardPass ops e (initSt V P)) = some s' ∧
      (∀ j, s'.vars j = V j + (-lr) * adjSum ops V P e 1 j) ∧
      s'.phs = P ∧ s'.result = exprVal ops V P e := by
  have hw := walk_vars ops e (-lr) 1 0 (dfs_tuple_size e : ℤ) V P
    (AddMyGrad (ForwardPass ops e (initSt V P)) ((dfs_tuple_size e : ℤ) - 1) 1)
    (by push_cast; ring) (seeded_desc ops e V P)
  rcases hw with ⟨s', hw', hv', _, hphs', hres'⟩
  refine ⟨s', hw', ?_, ?_, ?_⟩
  · intro j
    rw [hv' j]
    show (ForwardPass ops e (initSt V P)).vars j + (-lr) * adjSum ops V P e 1 j = _
    rw [(ForwardPass_preserves ops e (initSt V P)).1]
    rfl
  · rw [hphs']
    show (ForwardPass ops e (initSt V P)).phs = P
    rw [(ForwardPass_preserves ops e (initSt V P)).2]
    rfl
  · rw [hres']
    show (ForwardPass ops e (initSt V P)).result = _
    rw [ForwardPass_result]
    rfl

theorem Maximize_fresh [Field α] (ops : TOps α) (e : Expr α) (V : ℕ → α) (P : ℕ → Ph α)
    (lr : α) :
    ∃ s', Maximize lr e (ForwardPass ops e (initSt V P)) = some s' ∧
      (∀ j, s'.vars j = V j + lr * adjSum ops V P e 1 j) ∧
      s'.phs = P ∧ s'.result = exprVal ops V P e := by
  have hw := walk_vars ops e lr 1 0 (dfs_tuple_size e : ℤ) V P
    (AddMyGrad (ForwardPass ops e (initSt V P)) ((dfs_tuple_size e : ℤ) - 1) 1)
    (by push_cast; ring) (seeded_desc ops e V P)
  rcases hw with ⟨s', hw', hv', _, hphs', hres'⟩
  refine ⟨s', hw', ?_, ?_, ?_⟩
  · intro j
    rw [hv' j]
    show (ForwardPass ops e (initSt V P)).vars j + lr * adjSum ops V P e 1 j = _
    rw [(ForwardPass_preserves ops e (initSt V P)).1]
    rfl
  · rw [hphs']
    show (ForwardPass ops e (initSt V P)).phs = P
    rw [(ForwardPass_preserves ops e (initSt V P)).2]
    rfl
  · rw [hres']
    show (ForwardPass ops e (initSt V P)).result = _
    rw [ForwardPass_result]
    rfl

end EtAD


open EtAD

/-- Claim C1 — counterexample.  In the `Et_test` variant, for
`Y = C1 + X1` with `C1 = 4`, `X1 = 5`, `Maximize(2)` seeds the root
gradient with the literal `1.0` (ignoring the learning rate) and pushes it
unscaled into the variable, so `X1` becomes `6`; the claim ("seeds the
multiplicative identity and adds `(+lr) ×` the accumulated gradient", the
accumulated gradient here being `1`) predicts `5 + 2 * 1 = 7`. -/
theorem C1_counterexample :
    (EtTest.tMaximize (2 : ℚ) (EtTest.TExpr.add 0 (EtTest.TExpr.cst 4) (EtTest.TExpr.var 0))
      (fun _ => 5)).2 0 = 6 ∧ ((6 : ℚ) ≠ 5 + 2 * 1) := by
  constructor
  · simp [EtTest.tMaximize, EtTest.tBackward, EtTest.pushT, EtTest.initGrads,
      EtTest.addGradRoot]
    norm_num
  · norm_num

/-- Claim C1 (amended): in the `Et` optimizer, after a `ForwardPass`,
`Minimize(lr)` seeds the root slot's accumulated gradient with the
multiplicative identity `1` and changes every trainable Variable by
`(-lr) ×` its accumulated slot gradient (summed over occurrences, the
`adjSum` seeded with `1`), and `Maximize(lr)` likewise adds `(+lr) ×` it.
The `Et_test` variant instead ignores the learning rate entirely in
`Maximize` (it seeds the literal `1.0`), and its `Minimize` seeds the root
gradient directly with `-lr`, not with the identity. -/
theorem C1_et_sign_convention :
    (∀ (α : Type) [Field α] (ops : TOps α) (e : Expr α) (V : ℕ → α) (P : ℕ → Ph α)
      (lr : α) (j : ℕ),
      (Minimize lr e (ForwardPass ops e (initSt V P))).map (fun st => st.vars j) =
        some (V j + (-lr) * adjSum ops V P e 1 j) ∧
      (Maximize lr e (ForwardPass ops e (initSt V P))).map (fun st => st.vars j) =
        some (V j + lr * adjSum ops V P e 1 j)) ∧
    (∀ (α : Type) [Field α] (lr lr' : α) (e : EtTest.TExpr α) (V : ℕ → α),
      EtTest.tMaximize lr e V = EtTest.tMaximize lr' e V) ∧
    (∀ (α : Type) [Field α] (lr g : α) (a b : EtTest.TExpr α),
      EtTest.rootGrad (EtTest.addGradRoot (-lr) (EtTest.initGrads (EtTest.TExpr.add g a b))) =
        -lr) := by
  refine ⟨?_, ?_, ?_⟩
  · intro α _ ops e V P lr j
    constructor
    · rcases Minimize_fresh ops e V P lr with ⟨s', hs', hv, _, _⟩
      rw [hs']
      exact congrArg some (hv j)
    · rcases Maximize_fresh ops e V P lr with ⟨s', hs', hv, _, _⟩
      rw [hs']
      exact congrArg some (hv j)
  · intro α _ lr lr' e V
    rfl
  · intro α _ lr g a b
    show (0 : α) + (-lr) = -lr
    rw [zero_add]

/-- Claim C2: after any forward pass, the local partial derivatives recorded
into each operation occurrence's slot are exactly the §4.1 formulas
evaluated at the children's values as of that pass (the occurrence at
position `p` of the DFS order corresponds to slot `p`). -/
theorem C2_local_grads_match_spec :
    ∀ (α : Type) [Field α] (ops : TOps α) (e : Expr α) (s : OptSt α) (p : ℕ),
    (∀ (op : BinOp) (a b : Expr α),
      (dfs_tuple e)[p]? = some (Expr.bin op a b) →
      ((ForwardPass ops e s).slots (p : ℤ)).lg1 =
        specLG1 ops op (exprVal ops s.vars s.phs a) (exprVal ops s.vars s.phs b) ∧
      ((ForwardPass ops e s).slots (p : ℤ)).lg2 =
        specLG2 ops op (exprVal ops s.vars s.phs a) (exprVal ops s.vars s.phs b)) ∧
    (∀ (op : UnOp) (a : Expr α),
      (dfs_tuple e)[p]? = some (Expr.un op a) →
      ((ForwardPass ops e s).slots (p : ℤ)).lg1 =
        specULG ops op (exprVal ops s.vars s.phs a)) := by
  intro α _ ops e s p
  constructor
  · intro op a b hp
    rw [ForwardPass_slots ops e s p (Expr.bin op a b) hp]
    exact ⟨binLG1_eq_specLG1 ops op _ _, binLG2_eq_specLG2 ops op _ _⟩
  · intro op a hp
    rw [ForwardPass_slots ops e s p (Expr.un op a) hp]
    exact unLG_eq_specULG ops op _

/-- Claim C2 — witness: a division node `3 / 2` at slot `2`. -/
theorem C2_witness :
    ((ForwardPass qOps (Expr.bin BinOp.div (Expr.term (Leaf.cst 3)) (Expr.term (Leaf.cst 2)))
        (initSt (fun _ => 0) (fun _ => Ph.init))).slots (2 : ℤ)).lg1 =
      specLG1 qOps BinOp.div
        (exprVal qOps (initSt (fun _ => (0 : ℚ)) (fun _ => Ph.init)).vars
          (initSt (fun _ => (0 : ℚ)) (fun _ => Ph.init)).phs (Expr.term (Leaf.cst 3)))
        (exprVal qOps (initSt (fun _ => (0 : ℚ)) (fun _ => Ph.init)).vars
          (initSt (fun _ => (0 : ℚ)) (fun _ => Ph.init)).phs (Expr.term (Leaf.cst 2))) ∧
    ((ForwardPass qOps (Expr.bin BinOp.div (Expr.term (Leaf.cst 3)) (Expr.term (Leaf.cst 2)))
        (initSt (fun _ => 0) (fun _ => Ph.init))).slots (2 : ℤ)).lg2 =
      specLG2 qOps BinOp.div
        (exprVal qOps (initSt (fun _ => (0 : ℚ)) (fun _ => Ph.init)).vars
          (initSt (fun _ => (0 : ℚ)) (fun _ => Ph.init)).phs (Expr.term (Leaf.cst 3)))
        (exprVal qOps (initSt (fun _ => (0 : ℚ)) (fun _ => Ph.init)).vars
          (initSt (fun _ => (0 : ℚ)) (fun _ => Ph.init)).phs (Expr.term (Leaf.cst 2))) :=
  (C2_local_grads_match_spec ℚ qOps _ _ 2).1 BinOp.div _ _ rfl

/-- Claim C3: for `y = a * a` built from one shared variable, the backward
pass pushes a contribution into both occurrences' slots; `Minimize(lr)`
changes `a` by `(-lr) ×` their sum, i.e. the effective gradient is `2a`. -/
theorem C3_shared_variable_gradient :
    ∀ (α : Type) [Field α] (ops : TOps α) (lr : α) (V : ℕ → α) (P : ℕ → Ph α),
    adjSum ops V P (Expr.bin BinOp.mul (Expr.term (Leaf.var 0)) (Expr.term (Leaf.var 0)))
        1 0 = V 0 + V 0 ∧
    (Minimize lr (Expr.bin BinOp.mul (Expr.term (Leaf.var 0)) (Expr.term (Leaf.var 0)))
        (ForwardPass ops
          (Expr.bin BinOp.mul (Expr.term (Leaf.var 0)) (Expr.term (Leaf.var 0)))
          (initSt V P))).map (fun st => st.vars 0) =
      some (V 0 + (-lr) * (V 0 + V 0)) := by
  intro α _ ops lr V P
  have hadj : adjSum ops V P
      (Expr.bin BinOp.mul (Expr.term (Leaf.var 0)) (Expr.term (Leaf.var 0))) 1 0 =
      V 0 + V 0 := by
    show (if 0 = 0 then (1 : α) * binLG1 ops BinOp.mul (V 0) (V 0) else 0) +
      (if 0 = 0 then (1 : α) * binLG2 ops BinOp.mul (V 0) (V 0) else 0) = V 0 + V 0
    rw [if_pos rfl, if_pos rfl]
    show (1 : α) * V 0 + 1 * V 0 = V 0 + V 0
    ring
  refine ⟨hadj, ?_⟩
  rcases Minimize_fresh ops
    (Expr.bin BinOp.mul (Expr.term (Leaf.var 0)) (Expr.term (Leaf.var 0))) V P lr with
    ⟨s', hs', hv, _, _⟩
  rw [hs']
  refine congrArg some ?_
  show s'.vars 0 = V 0 + -lr * (V 0 + V 0)
  rw [hv 0, hadj]

/-- Claim C4: immediately after a `ForwardPass` (before any backward pass or
leaf mutation), `GetPreResult` — the slot-machine result captured by the
pass — equals `GetPostResult` — the direct recursive `operator()`
evaluation of the live expression tree.  (This holds for any prior state,
in particular whether or not placeholders were fed: the `Et` placeholder
read never fails, see C6.) -/
theorem C4_pre_eq_post :
    ∀ (α : Type) [Field α] (ops : TOps α) (e : Expr α) (s : OptSt α),
    GetPreResult (ForwardPass ops e s) = GetPostResult ops e (ForwardPass ops e s) := by
  intro α _ ops e s
  show (ForwardPass ops e s).result =
    exprVal ops (ForwardPass ops e s).vars (ForwardPass ops e s).phs e
  rw [ForwardPass_result, (ForwardPass_preserves ops e s).1,
    (ForwardPass_preserves ops e s).2]

/-- Claim C5: in the Computation Order, every operation occurrence's
recorded child slot indices are nonnegative and strictly less than its own
slot index, and the last slot is the root expression's record. -/
theorem C5_order_invariant :
    ∀ (α : Type) (e : Expr α),
    (∀ (i : ℕ) (nd : Node α), (order e)[i]? = some nd →
      ∀ c ∈ childrenOf nd, 0 ≤ c ∧ c < (i : ℤ)) ∧
    (order e).getLast? = some (rootRec e) := by
  intro α e
  constructor
  · intro i nd hnd c hc
    have hb := dfs_final_tuple_children e (dfs_tuple_size e : ℤ) i nd hnd c hc
    omega
  · show (dfs_final_tuple e (dfs_tuple_size e : ℤ)).getLast? = some (rootRec e)
    rw [dfs_final_tuple_getLast]
    cases e <;> rfl

/-- Claim C5 — witness: `(1 + 2)` has order `[term, term, add 0 1]`; the
binary record at slot `2` has children `0, 1 < 2`, and the last record is
the root's. -/
theorem C5_witness :
    (∀ c ∈ childrenOf (Node.bin BinOp.add 0 1 : Node ℚ), 0 ≤ c ∧ c < (2 : ℤ)) ∧
    (order (Expr.bin BinOp.add (Expr.term (Leaf.cst (1 : ℚ)))
      (Expr.term (Leaf.cst 2)))).getLast? =
      some (rootRec (Expr.bin BinOp.add (Expr.term (Leaf.cst (1 : ℚ)))
        (Expr.term (Leaf.cst 2)))) :=
  ⟨(C5_order_invariant ℚ (Expr.bin BinOp.add (Expr.term (Leaf.cst 1))
      (Expr.term (Leaf.cst 2)))).1 2 (Node.bin BinOp.add 0 1) rfl,
    (C5_order_invariant ℚ _).2⟩

/-- Claim C6 — the code diverges from the claim.  In the `Et` variant a
freshly constructed `PlaceholderExpr` holds `_is_default = true` and the
zero default; reading it (directly, or through a forward pass) silently
returns `0` instead of failing — `operator()` never consults
`_is_default`.  Only the `Et_test` variant (`std::optional::value()`)
fails on an unfed read. -/
theorem C6_placeholder_silent_default :
    (Ph.init : Ph ℚ).isDefault = true ∧
    (Ph.init : Ph ℚ).value = 0 ∧
    GetPreResult (ForwardPass qOps (Expr.term (Leaf.ph 0))
      (initSt (fun _ => 0) (fun _ => Ph.init))) = 0 ∧
    GetPostResult qOps (Expr.term (Leaf.ph 0))
      (initSt (fun _ => (0 : ℚ)) (fun _ => Ph.init)) = 0 ∧
    EtTest.tval (fun _ => (0 : ℚ)) (fun _ => none) (EtTest.TExpr.ph 0) = none :=
  ⟨rfl, rfl, rfl, rfl, rfl⟩

/-- Claim C7: whenever a `Minimize` or `Maximize` call completes, every slot
of the Computation Order holds a zero accumulated gradient (whatever the
state it ran on), so iterations never leak gradient state. -/
theorem C7_grads_reset :
    ∀ (α : Type) [Field α] (lr : α) (e : Expr α) (s st : OptSt α) (n : ℕ),
    n < dfs_tuple_size e →
    (Minimize lr e s = some st → (st.slots (n : ℤ)).grad = 0) ∧
    (Maximize lr e s = some st → (st.slots (n : ℤ)).grad = 0) := by
  intro α _ lr e s st n hn
  constructor
  · intro h
    have hz := (walk_frame_zero (-lr) e 0 (dfs_tuple_size e : ℤ)
      (AddMyGrad s ((dfs_tuple_size e : ℤ) - 1) 1) st (by push_cast; ring) h).2 n hn
    simpa using hz
  · intro h
    have hz := (walk_frame_zero lr e 0 (dfs_tuple_size e : ℤ)
      (AddMyGrad s ((dfs_tuple_size e : ℤ) - 1) 1) st (by push_cast; ring) h).2 n hn
    simpa using hz

/-- Claim C7 — witness: a completed `Minimize` run on `1 + 2` leaves slot
`0` with zero gradient. -/
theorem C7_witness :
    ∃ st, Minimize (1 : ℚ) (Expr.bin BinOp.add (Expr.term (Leaf.cst 1))
        (Expr.term (Leaf.cst 2)))
      (initSt (fun _ => 0) (fun _ => Ph.init)) = some st ∧
      (st.slots ((0 : ℕ) : ℤ)).grad = 0 := by
  obtain ⟨st, hst⟩ : ∃ st, Minimize (1 : ℚ) (Expr.bin BinOp.add (Expr.term (Leaf.cst 1))
      (Expr.term (Leaf.cst 2))) (initSt (fun _ => 0) (fun _ => Ph.init)) = some st :=
    ⟨_, rfl⟩
  exact ⟨st, hst, (C7_grads_reset ℚ 1 _ _ st 0 (by decide)).1 hst⟩

/-- Claim C8: the Computation Order's length satisfies the closed form
`size(Terminal) = 1`, `size(Unary(a)) = size(a) + 1`,
`size(Binary(a,b)) = size(a) + size(b) + 1`, and depends only on the
structural shape (constant payloads are irrelevant; no runtime state is
consulted). -/
theorem C8_order_size :
    ∀ (α β : Type) (f : α → β),
    (∀ e : Expr α, (order e).length = dfs_tuple_size e) ∧
    (∀ l : Leaf α, dfs_tuple_size (Expr.term l) = 1) ∧
    (∀ (op : UnOp) (a : Expr α), dfs_tuple_size (Expr.un op a) = dfs_tuple_size a + 1) ∧
    (∀ (op : BinOp) (a b : Expr α),
      dfs_tuple_size (Expr.bin op a b) = dfs_tuple_size a + dfs_tuple_size b + 1) ∧
    (∀ e : Expr α, dfs_tuple_size (mapVal f e) = dfs_tuple_size e) := by
  intro α β f
  exact ⟨fun e => length_dfs_final_tuple e _, fun l => rfl, fun op a => rfl,
    fun op a b => rfl, fun e => dfs_tuple_size_mapVal f e⟩

/-- Claim C9 (amended): `Minimize`/`Maximize` before any `ForwardPass`
performs no precondition check.  The backward walk simply runs over the
never-initialised slots: when the expression contains a trainable
Variable, the walk dereferences that slot's null `_expr` back-pointer
(modelled as `none`) part-way through; when it contains none, the call
completes without any failure (see the counterexample). -/
theorem C9_no_precondition_check :
    ∀ (α : Type) [Field α] (lr : α) (e : Expr α) (V : ℕ → α) (P : ℕ → Ph α),
    hasVar e = true →
    Minimize lr e (initSt V P) = none ∧ Maximize lr e (initSt V P) = none := by
  intro α _ lr e V P hvar
  have hseed : ∀ n : ℤ,
      ((AddMyGrad (initSt V P) ((dfs_tuple_size e : ℤ) - 1) 1).slots n).exprSet = false := by
    intro n
    rw [AddMyGrad_slots]
    split <;> rfl
  rcases var_mem_dfs_final_tuple e (dfs_tuple_size e : ℤ) hvar with ⟨j, hj⟩
  rcases mem_enumF 0 hj with ⟨i, hi⟩
  have hmem : (i, Node.term (Leaf.var j)) ∈
      (enumF 0 (dfs_final_tuple e (dfs_tuple_size e : ℤ))).reverse := List.mem_reverse.2 hi
  exact ⟨backWalk_none_of_var (-lr) _ _ ⟨i, j, hmem⟩ hseed,
    backWalk_none_of_var lr _ _ ⟨i, j, hmem⟩ hseed⟩

/-- Claim C9 — counterexample: with no trainable Variable in the
expression, `Minimize` before any `ForwardPass` completes without any
failure — there is no precondition check and no fail-fast. -/
theorem C9_counterexample :
    (Minimize (1 : ℚ) (Expr.bin BinOp.add (Expr.term (Leaf.cst 1)) (Expr.term (Leaf.cst 2)))
      (initSt (fun _ => 0) (fun _ => Ph.init))).isSome = true := rfl

/-- Claim C9 — witness: on `x * 2`, `Minimize`/`Maximize` with no prior
forward pass fail (null `_expr` dereference). -/
theorem C9_witness :
    Minimize (1 : ℚ) (Expr.bin BinOp.mul (Expr.term (Leaf.var 0)) (Expr.term (Leaf.cst 2)))
      (initSt (fun _ => 0) (fun _ => Ph.init)) = none ∧
    Maximize (1 : ℚ) (Expr.bin BinOp.mul (Expr.term (Leaf.var 0)) (Expr.term (Leaf.cst 2)))
      (initSt (fun _ => 0) (fun _ => Ph.init)) = none :=
  C9_no_precondition_check ℚ 1 _ _ _ rfl

/-- Claim C10: `Minimize(lr)` and `Maximize(-lr)` are the same state update
(definitionally: both seed `1` and run the backward pass with `-lr`), and
from identical post-`ForwardPass` states `Maximize(lr)` applies to every
trainable Variable exactly the negation of `Minimize(lr)`'s delta. -/
theorem C10_minimize_maximize_negation :
    (∀ (α : Type) [Field α] (lr : α) (e : Expr α) (s : OptSt α),
      Minimize lr e s = Maximize (-lr) e s) ∧
    (∀ (α : Type) [Field α] (ops : TOps α) (e : Expr α) (V : ℕ → α) (P : ℕ → Ph α)
      (lr : α) (j : ℕ),
      (Maximize lr e (ForwardPass ops e (initSt V P))).map (fun st => st.vars j - V j) =
      (Minimize lr e (ForwardPass ops e (initSt V P))).map
        (fun st => -(st.vars j - V j))) := by
  constructor
  · intro α _ lr e s
    rfl
  · intro α _ ops e V P lr j
    rcases Minimize_fresh ops e V P lr with ⟨smin, hmin, hvmin, _, _⟩
    rcases Maximize_fresh ops e V P lr with ⟨smax, hmax, hvmax, _, _⟩
    rw [hmin, hmax]
    show some (smax.vars j - V j) = some (-(smin.vars j - V j))
    refine congrArg some ?_
    rw [hvmax j, hvmin j]
    ring
